import Mathlib

/- Verification development for rancher-upgrader: the upgrade-path resolver
   (getNextSupportedChartVersion in cmd/upgrade.go, identical to
   Client.GetNextSupportedRancherChartVersion in internal/helm), the version
   range builder (getReleasesBetweenInclusive) and the release-notes differ
   (parseReleaseNotes, parseNotesSections, parseBulletPoints).

   Versions follow the design document's data model: a version is a triple of
   numeric components (major, minor, patch), each a Go uint64 value produced
   by blang/semver parsing.  On this domain the decimal string rendering
   "major.minor.patch" is injective and parsing is its inverse, so the string
   comparisons the source performs on version strings coincide with
   comparisons of the parsed values; the embedding therefore works directly
   with parsed values.  uint64 arithmetic from the source is modelled on Nat
   with explicit reduction modulo 2 ^ 64. -/

instance {e a : Type} [DecidableEq e] [DecidableEq a] : DecidableEq (Except e a) :=
  fun x y =>
    match x, y with
    | .error u, .error v =>
      if h : u = v then isTrue (by rw [h]) else
        isFalse (fun hc => h (Except.error.inj hc))
    | .ok u, .ok v =>
      if h : u = v then isTrue (by rw [h]) else
        isFalse (fun hc => h (Except.ok.inj hc))
    | .error _, .ok _ => isFalse (fun hc => Except.noConfusion hc)
    | .ok _, .error _ => isFalse (fun hc => Except.noConfusion hc)

structure SemVer where
  major : Nat
  minor : Nat
  patch : Nat
deriving DecidableEq, Repr

/-- Semver precedence on bare numeric triples: major, then minor, then patch. -/
def svLe (a b : SemVer) : Prop :=
  a.major < b.major ∨
    (a.major = b.major ∧
      (a.minor < b.minor ∨ (a.minor = b.minor ∧ a.patch ≤ b.patch)))

instance (a b : SemVer) : Decidable (svLe a b) :=
  decidable_of_iff
    (a.major < b.major ∨
      (a.major = b.major ∧
        (a.minor < b.minor ∨ (a.minor = b.minor ∧ a.patch ≤ b.patch))))
    Iff.rfl

/-- The scan order of the resolver loop: helm's IndexFile.SortEntries sorts
    each chart's version list in descending order (sort.Reverse over the
    ascending semver order), so the loop visits greater versions first. -/
def svGe (a b : SemVer) : Prop := svLe b a

instance : DecidableRel svGe := fun a b => inferInstanceAs (Decidable (svLe b a))

/-- 2 ^ 64, the modulus of Go uint64 arithmetic. -/
def U64 : Nat := 18446744073709551616

/-- Go uint64 subtraction of 1, as in the source's "chartSemver.Minor-1":
    wraps around at zero. -/
def goDec1 (n : Nat) : Nat := (n + (U64 - 1)) % U64

/-- Go uint64 addition. -/
def u64add (a b : Nat) : Nat := (a + b) % U64

/-- Go uint64 subtraction. -/
def u64sub (a b : Nat) : Nat := (a % U64 + (U64 - b % U64)) % U64

/-- The loop of getNextSupportedChartVersion over the (descending-sorted)
    catalog entries.  State nm is the nextMinorUpgrade candidate (the Go code
    uses the empty string as the not-yet-found sentinel, which no parsed
    version renders to, hence Option).  The first branch records the first
    entry whose minor, decremented as a uint64, equals the current minor and
    continues; entries on other minors are skipped; the first entry on the
    current minor is latestPatchOnCurrentMinorVersion and breaks the loop. -/
def scanLoop (cminor : Nat) : List SemVer → Option SemVer → Option SemVer × Option SemVer
  | [], nm => (nm, none)
  | e :: rest, nm =>
    if nm = none ∧ goDec1 e.minor = cminor then scanLoop cminor rest (some e)
    else if e.minor = cminor then (nm, some e)
    else scanLoop cminor rest nm

/-- getNextSupportedChartVersion (cmd/upgrade.go lines 154-196; the identical
    GetNextSupportedRancherChartVersion in internal/helm): sort the catalog
    descending, run the scan loop, then: no latest patch on the current minor
    line is an error; a latest patch differing from the current version is
    returned; else the next-minor candidate if present; else the current
    version unchanged.  The source compares the current version string with
    the recorded entry string; on the numeric-triple version domain this is
    exactly value equality. -/
def getNextSupportedChartVersion (current : SemVer) (catalog : List SemVer) :
    Except String SemVer :=
  match scanLoop current.minor (List.insertionSort svGe catalog) none with
  | (_, none) => .error "could not detect latest patch for current minor line"
  | (nm, some latestPatch) =>
    if current ≠ latestPatch then .ok latestPatch
    else
      match nm with
      | some nextMinor => .ok nextMinor
      | none => .ok current

/-- Largest value of a Go int, 2 ^ 63 - 1 (the slice-length bound checked by
    make). -/
def maxGoInt : Nat := 9223372036854775807

/-- getReleasesBetweenInclusive (cmd/upgrade.go lines 232-248): diff is the
    uint64 difference of the patch components; make([]string, diff+1) panics
    when the wrapped length exceeds the int range (modelled as the error
    outcome); otherwise the slice is filled with start.major.minor.(patch+i)
    for i below diff+1, with uint64 addition. -/
def getReleasesBetweenInclusive (starting final : SemVer) :
    Except String (List SemVer) :=
  let diff := u64sub final.patch starting.patch
  let count := u64add diff 1
  if count ≤ maxGoInt then
    .ok ((List.range count).map fun i =>
      SemVer.mk starting.major starting.minor (u64add starting.patch i))
  else .error "makeslice: len out of range"

/-- First element of a list satisfying a decidable predicate; mirrors the way
    the resolver loop selects the first matching catalog entry in scan order. -/
def firstMatch (p : SemVer → Prop) [DecidablePred p] : List SemVer → Option SemVer
  | [] => none
  | e :: rest => if p e then some e else firstMatch p rest

/- Strings handled by the release-notes differ are modelled as lists of
   characters; the Go string functions used by the source (strings.Index,
   strings.Replace with count 1, strings.ReplaceAll, strings.Split) are
   embedded below. -/

/-- strings.Index: position of the first occurrence of pat in s, none when
    absent (the Go function returns -1).  The empty pattern occurs at 0. -/
def strIndex (pat : List Char) : List Char → Option Nat
  | [] => if pat.isPrefixOf [] then some 0 else none
  | c :: rest =>
    if pat.isPrefixOf (c :: rest) then some 0
    else (strIndex pat rest).map (fun n => n + 1)

/-- strings.Replace(s, old, new, 1): replace the first occurrence of old.
    For an empty old the replacement is inserted in front, as in Go. -/
def replaceFirst (s old new : List Char) : List Char :=
  match strIndex old s with
  | none => s
  | some i => s.take i ++ new ++ s.drop (i + old.length)

/-- strings.ReplaceAll(s, "\r\n", "") as written in the source: the pattern
    is the four-character escaped sequence found in the fetched JSON body.
    Non-overlapping occurrences are removed left to right. -/
def removeCRLF : List Char → List Char
  | '\\' :: 'r' :: '\\' :: 'n' :: rest => removeCRLF rest
  | c :: rest => c :: removeCRLF rest
  | [] => []

/-- strings.Split(s, "- "), the bullet delimiter used by parseBulletPoints:
    segments of s around non-overlapping occurrences of the two-character
    delimiter, empty fragments retained. -/
def splitDash : List Char → List (List Char)
  | '-' :: ' ' :: rest => [] :: splitDash rest
  | c :: rest =>
    match splitDash rest with
    | [] => [[c]]
    | h :: t => (c :: h) :: t
  | [] => [[]]

/-- parseBulletPoints (cmd/upgrade.go lines 395-402): splits the section on
    the bullet delimiter and copies every fragment, including empty ones. -/
def parseBulletPoints (section' : List Char) : List (List Char) :=
  splitDash section'

/-- Character class of the fixed comment pattern
    markdownCommentsReg = <!--[A-Za-z0-9-#/, ]*-->. -/
def classChar (c : Char) : Bool :=
  c.isAlpha || c.isDigit || c = '-' || c = '#' || c = '/' || c = ',' || c = ' '

/-- After the opening delimiter, a comment matches when a run of class
    characters is followed by the closing delimiter.  Because the closing
    character is outside the class, the run length admitting the closing
    delimiter is unique, so the greedy regex match and this shortest-first
    scan accept exactly the same strings. -/
def commentEnd : List Char → Option (List Char)
  | [] => none
  | c :: rest =>
    if c = '-' ∧ rest.take 2 = ['-', '>'] then some (rest.drop 2)
    else if classChar c then commentEnd rest else none

/-- markdownCommentsReg.ReplaceAllString(notes, ""): delete successive
    non-overlapping leftmost matches of the comment pattern.  Fuel is the
    length of the string; every step consumes at least one character. -/
def stripCommentsAux : Nat → List Char → List Char
  | 0, s => s
  | _ + 1, [] => []
  | fuel + 1, '<' :: '!' :: '-' :: '-' :: rest =>
    (match commentEnd rest with
    | some rest2 => stripCommentsAux fuel rest2
    | none => '<' :: stripCommentsAux fuel ('!' :: '-' :: '-' :: rest))
  | fuel + 1, c :: rest => c :: stripCommentsAux fuel rest

def stripComments (s : List Char) : List Char :=
  stripCommentsAux s.length s

def majorBugFixHeader : List Char := "# Major Bug Fixes".toList

def rancherBehaviorChangesHeader : List Char := "# Rancher Behavior Changes".toList

def knownIssuesHeader : List Char := "# Known Issues".toList

def installUpgradeNotesHeader : List Char := "# Install/Upgrade Notes".toList

/-- parseNotesSections (cmd/upgrade.go lines 383-393): the text between the
    end of the first occurrence of header1 and the start of the first
    occurrence of header2, with escaped line breaks removed; empty when
    either header is absent.  When header2's first occurrence starts before
    the end of header1's, the Go slice expression
    notes[startIndex+len(header1):stopIndex] panics with a bounds error,
    modelled as the error outcome. -/
def parseNotesSections (header1 header2 notes : List Char) :
    Except String (List Char) :=
  match strIndex header1 notes with
  | none => .ok []
  | some startIndex =>
    match strIndex header2 notes with
    | none => .ok []
    | some stopIndex =>
      if startIndex + header1.length ≤ stopIndex then
        .ok (removeCRLF ((notes.take stopIndex).drop (startIndex + header1.length)))
      else .error "runtime error: slice bounds out of range"

/-- The loop of parseReleaseNotes (cmd/upgrade.go lines 250-290), with the
    fetched notes document for each release supplied by fetch (the source
    fetches over HTTP; a fetch failure aborts the whole call, so the theorems
    below assume the documents are available).  The two accumulator arguments
    are lastReleaseBugfixes and lastReleaseKnownIssues.  The Go slice-bounds
    panic inside parseNotesSections is modelled as the error outcome. -/
def parseReleaseNotesFrom (fetch : SemVer → List Char) :
    List SemVer → List Char → List Char →
      Except String (List (List (List Char)) × List (List (List Char)))
  | [], _, _ => .ok ([], [])
  | r :: rest, lastBug, lastKnown =>
    match parseNotesSections majorBugFixHeader rancherBehaviorChangesHeader
        (stripComments (fetch r)) with
    | .error msg => .error msg
    | .ok fullBug =>
      match parseNotesSections knownIssuesHeader installUpgradeNotesHeader
          (stripComments (fetch r)) with
      | .error msg => .error msg
      | .ok fullKnown =>
        match parseReleaseNotesFrom fetch rest fullBug fullKnown with
        | .error msg => .error msg
        | .ok (bugs, knowns) =>
          .ok (parseBulletPoints
                (if lastBug = [] then fullBug else replaceFirst fullBug lastBug []) ::
              bugs,
            parseBulletPoints
                (if lastKnown = [] then fullKnown
                  else replaceFirst fullKnown lastKnown []) ::
              knowns)

/-- parseReleaseNotes: run the loop with empty last-body accumulators. -/
def parseReleaseNotes (fetch : SemVer → List Char) (releases : List SemVer) :
    Except String (List (List (List Char)) × List (List (List Char))) :=
  parseReleaseNotesFrom fetch releases [] []

theorem svLe_refl (a : SemVer) : svLe a a := by
  unfold svLe; omega

theorem svLe_total (a b : SemVer) : svLe a b ∨ svLe b a := by
  unfold svLe; omega

theorem svLe_trans {a b c : SemVer} (h1 : svLe a b) (h2 : svLe b c) : svLe a c := by
  unfold svLe at *; omega

theorem svLe_antisymm {a b : SemVer} (h1 : svLe a b) (h2 : svLe b a) : a = b := by
  obtain ⟨x1, x2, x3⟩ := a
  obtain ⟨y1, y2, y3⟩ := b
  unfold svLe at h1 h2
  dsimp only at h1 h2
  simp only [SemVer.mk.injEq]
  omega

instance : IsTotal SemVer svGe := ⟨fun a b => (svLe_total b a).elim Or.inl Or.inr⟩

instance : IsTrans SemVer svGe := ⟨fun _ _ _ hab hbc => svLe_trans hbc hab⟩

theorem goDec1_ne_self (m : Nat) : goDec1 m ≠ m := by
  unfold goDec1 U64; omega

theorem goDec1_eq_iff {m cm : Nat} (hm : m < U64) (hcm : cm + 1 < U64) :
    goDec1 m = cm ↔ m = cm + 1 := by
  unfold goDec1 U64 at *; omega

theorem firstMatch_eq_none (p : SemVer → Prop) [DecidablePred p] (l : List SemVer) :
    firstMatch p l = none ↔ ∀ e ∈ l, ¬ p e := by
  induction l with
  | nil => simp [firstMatch]
  | cons a t ih =>
    by_cases h : p a
    · simp [firstMatch, h]
    · simp [firstMatch, h, ih]

/-- In a descending-sorted list, the first entry satisfying p is the greatest
    entry satisfying p. -/
theorem firstMatch_sorted_max (p : SemVer → Prop) [DecidablePred p] (M : SemVer)
    (hpM : p M) :
    ∀ l, List.Sorted svGe l → M ∈ l → (∀ e ∈ l, p e → svLe e M) →
      firstMatch p l = some M := by
  intro l
  induction l with
  | nil => intro _ h; exact absurd h (List.not_mem_nil M)
  | cons a t ih =>
    intro hs hM hmax
    obtain ⟨hhead, htail⟩ := List.sorted_cons.mp hs
    by_cases hpa : p a
    · have haM : svLe a M := hmax a (List.mem_cons_self a t) hpa
      have hMa : svLe M a := by
        rcases List.mem_cons.mp hM with rfl | hMt
        · exact svLe_refl M
        · exact hhead M hMt
      have ha : a = M := svLe_antisymm haM hMa
      subst ha
      simp [firstMatch, hpa]
    · have hMt : M ∈ t := by
        rcases List.mem_cons.mp hM with rfl | hMt
        · exact absurd hpM hpa
        · exact hMt
      have := ih htail hMt (fun e he hpe => hmax e (List.mem_cons_of_mem a he) hpe)
      simp [firstMatch, hpa, this]

/-- The latestPatch slot of the scan loop is the first entry in scan order on
    the current minor line, whatever the nextMinor state is. -/
theorem scanLoop_snd (cm : Nat) :
    ∀ (l : List SemVer) (nm : Option SemVer),
      (scanLoop cm l nm).2 = firstMatch (fun e => e.minor = cm) l := by
  intro l
  induction l with
  | nil => intro nm; rfl
  | cons a t ih =>
    intro nm
    show (if nm = none ∧ goDec1 a.minor = cm then scanLoop cm t (some a)
      else if a.minor = cm then (nm, some a) else scanLoop cm t nm).2 =
        firstMatch (fun e => e.minor = cm) (a :: t)
    by_cases h1 : nm = none ∧ goDec1 a.minor = cm
    · have hne : ¬ a.minor = cm := fun h =>
        goDec1_ne_self a.minor (by rw [h1.2]; exact h.symm)
      rw [if_pos h1, ih, firstMatch, if_neg hne]
    · rw [if_neg h1]
      by_cases h2 : a.minor = cm
      · rw [if_pos h2, firstMatch, if_pos h2]
      · rw [if_neg h2, ih, firstMatch, if_neg h2]

/-- Once the nextMinor candidate is recorded it is never replaced, and the
    rest of the scan just looks for the first current-minor entry. -/
theorem scanLoop_some (cm : Nat) (x : SemVer) :
    ∀ l : List SemVer,
      scanLoop cm l (some x) = (some x, firstMatch (fun e => e.minor = cm) l) := by
  intro l
  induction l with
  | nil => rfl
  | cons a t ih =>
    have h1 : ¬ ((some x : Option SemVer) = none ∧ goDec1 a.minor = cm) := by
      intro h; exact Option.noConfusion h.1
    show (if (some x : Option SemVer) = none ∧ goDec1 a.minor = cm then
        scanLoop cm t (some a)
      else if a.minor = cm then (some x, some a) else scanLoop cm t (some x)) =
        (some x, firstMatch (fun e => e.minor = cm) (a :: t))
    rw [if_neg h1]
    by_cases h2 : a.minor = cm
    · rw [if_pos h2, firstMatch, if_pos h2]
    · rw [if_neg h2, ih, firstMatch, if_neg h2]

theorem firstMatch_eq_some (p : SemVer → Prop) [DecidablePred p] :
    ∀ (l : List SemVer) (x : SemVer), firstMatch p l = some x → x ∈ l ∧ p x := by
  intro l
  induction l with
  | nil => intro x h; exact absurd h (by simp [firstMatch])
  | cons a t ih =>
    intro x h
    by_cases hpa : p a
    · rw [firstMatch, if_pos hpa] at h
      obtain rfl : a = x := Option.some.inj h
      exact ⟨List.mem_cons_self a t, hpa⟩
    · rw [firstMatch, if_neg hpa] at h
      obtain ⟨hmem, hp⟩ := ih x h
      exact ⟨List.mem_cons_of_mem a hmem, hp⟩

/-- Core behaviour of the resolver when the current version differs from the
    greatest catalog entry on its minor line: that entry is returned. -/
theorem resolve_ok_of_max (c M : SemVer) (catalog : List SemVer)
    (hM : M ∈ catalog) (hminor : M.minor = c.minor)
    (hmax : ∀ e ∈ catalog, e.minor = c.minor → svLe e M)
    (hne : c ≠ M) :
    getNextSupportedChartVersion c catalog = .ok M := by
  have hperm := List.perm_insertionSort svGe catalog
  have hsort := List.sorted_insertionSort svGe catalog
  have hMl : M ∈ List.insertionSort svGe catalog := hperm.mem_iff.mpr hM
  have hmaxl : ∀ e ∈ List.insertionSort svGe catalog, e.minor = c.minor → svLe e M :=
    fun e he => hmax e (hperm.mem_iff.mp he)
  have hfm : firstMatch (fun e => e.minor = c.minor)
      (List.insertionSort svGe catalog) = some M :=
    firstMatch_sorted_max _ M hminor _ hsort hMl hmaxl
  have h2 := scanLoop_snd c.minor (List.insertionSort svGe catalog) none
  rw [hfm] at h2
  unfold getNextSupportedChartVersion
  rcases hp : scanLoop c.minor (List.insertionSort svGe catalog) none with ⟨nm, lp⟩
  rw [hp] at h2
  obtain rfl : lp = some M := h2
  show (if c ≠ M then Except.ok M
    else match nm with
      | some nextMinor => Except.ok nextMinor
      | none => Except.ok c) = Except.ok M
  rw [if_pos hne]

/-- If no scanned entry triggers the nextMinor branch, the candidate slot
    stays empty and the loop reduces to the latest-patch search. -/
theorem scanLoop_noNext (cm : Nat) :
    ∀ (l : List SemVer) (nm : Option SemVer), (∀ e ∈ l, ¬ goDec1 e.minor = cm) →
      scanLoop cm l nm = (nm, firstMatch (fun e => e.minor = cm) l) := by
  intro l
  induction l with
  | nil => intro nm _; rfl
  | cons a t ih =>
    intro nm hno
    show (if nm = none ∧ goDec1 a.minor = cm then scanLoop cm t (some a)
      else if a.minor = cm then (nm, some a) else scanLoop cm t nm) =
        (nm, firstMatch (fun e => e.minor = cm) (a :: t))
    rw [if_neg (fun h => hno a (List.mem_cons_self a t) h.2)]
    by_cases h2 : a.minor = cm
    · rw [if_pos h2, firstMatch, if_pos h2]
    · rw [if_neg h2, ih nm (fun e he => hno e (List.mem_cons_of_mem a he)),
        firstMatch, if_neg h2]

/-- When the catalog shares the current major, the nextMinor slot ends up
    holding the greatest entry of the next minor line: in descending scan
    order every next-minor entry precedes every current-minor entry, and the
    first next-minor entry encountered is the greatest one. -/
theorem scanLoop_with_next (c N : SemVer) :
    ∀ l, List.Sorted svGe l →
      (∀ e ∈ l, e.major = c.major) →
      (∀ e ∈ l, e.minor < U64) →
      c.minor + 1 < U64 →
      N ∈ l → N.minor = c.minor + 1 →
      (∀ e ∈ l, e.minor = c.minor + 1 → svLe e N) →
      (∀ e ∈ l, e.minor = c.minor → svLe e c) →
      scanLoop c.minor l none = (some N, firstMatch (fun e => e.minor = c.minor) l) := by
  intro l
  induction l with
  | nil => intro _ _ _ _ hN; exact absurd hN (List.not_mem_nil N)
  | cons a t ih =>
    intro hs hmajor hbound hcb hN hNminor hnextmax hcurmax
    obtain ⟨hhead, htail⟩ := List.sorted_cons.mp hs
    show (if (none : Option SemVer) = none ∧ goDec1 a.minor = c.minor then
        scanLoop c.minor t (some a)
      else if a.minor = c.minor then ((none : Option SemVer), some a)
      else scanLoop c.minor t none) =
        (some N, firstMatch (fun e => e.minor = c.minor) (a :: t))
    by_cases hg : goDec1 a.minor = c.minor
    · have haminor : a.minor = c.minor + 1 :=
        (goDec1_eq_iff (hbound a (List.mem_cons_self a t)) hcb).mp hg
      have h1 : svLe a N := hnextmax a (List.mem_cons_self a t) haminor
      have h2 : svLe N a := by
        rcases List.mem_cons.mp hN with rfl | hNt
        · exact svLe_refl N
        · exact hhead N hNt
      obtain rfl : a = N := svLe_antisymm h1 h2
      rw [if_pos ⟨rfl, hg⟩, scanLoop_some, firstMatch, if_neg (by omega)]
    · rw [if_neg (fun h => hg h.2)]
      by_cases hm : a.minor = c.minor
      · exfalso
        have hNa : N ≠ a := by
          intro h
          rw [← h] at hm
          omega
        have hNt : N ∈ t := (List.mem_cons.mp hN).resolve_left hNa
        have h3 : svLe N c := svLe_trans (hhead N hNt) (hcurmax a (List.mem_cons_self a t) hm)
        have hmaj : N.major = c.major := hmajor N (List.mem_cons_of_mem a hNt)
        unfold svLe at h3
        omega
      · have hNt : N ∈ t := by
          rcases List.mem_cons.mp hN with rfl | h
          · exact absurd
              ((goDec1_eq_iff (hbound N (List.mem_cons_self N t)) hcb).mpr hNminor) hg
          · exact h
        rw [if_neg hm,
          ih htail (fun e he => hmajor e (List.mem_cons_of_mem a he))
            (fun e he => hbound e (List.mem_cons_of_mem a he)) hcb hNt hNminor
            (fun e he => hnextmax e (List.mem_cons_of_mem a he))
            (fun e he => hcurmax e (List.mem_cons_of_mem a he)),
          firstMatch, if_neg hm]

/-- Claim C1, counterexample.  The claim promises the maximum-patch entry of
    the minor line (all catalog entries whose minor equals the current minor,
    here 1.5.9 with patch 9), but for the catalog {1.5.9, 2.5.0} and current
    2.5.1 the resolver returns 2.5.0: the scan ranks entries by full version
    order, in which 2.5.0 precedes 1.5.9 despite its smaller patch. -/
theorem c1_counterexample :
    getNextSupportedChartVersion ⟨2, 5, 1⟩ [⟨1, 5, 9⟩, ⟨2, 5, 0⟩] = .ok ⟨2, 5, 0⟩ ∧
    (∀ e ∈ [(⟨1, 5, 9⟩ : SemVer), ⟨2, 5, 0⟩], e.minor = 5 → e.patch ≤ 9) ∧
    (⟨1, 5, 9⟩ : SemVer).patch = 9 ∧
    (⟨2, 5, 0⟩ : SemVer) ≠ ⟨1, 5, 9⟩ ∧ (⟨2, 5, 1⟩ : SemVer) ≠ ⟨1, 5, 9⟩ := by
  decide

/-- Claim C1, amended: for every current version c and every catalog
    containing at least one entry whose minor equals c's minor, if c is not
    the greatest entry of its minor line by full version order (major, then
    patch; the maximum-patch entry whenever the line has a single major),
    then Resolve returns that greatest entry.  In particular, for catalog
    {2.5.0, 2.5.1, 2.5.2, 2.6.0} and current 2.5.1 it returns 2.5.2. -/
theorem c1_resolve_latest_patch (c M : SemVer) (catalog : List SemVer)
    (hM : M ∈ catalog) (hminor : M.minor = c.minor)
    (hmax : ∀ e ∈ catalog, e.minor = c.minor → svLe e M)
    (hne : c ≠ M) :
    getNextSupportedChartVersion c catalog = .ok M :=
  resolve_ok_of_max c M catalog hM hminor hmax hne

/-- Claim C1, witness: the concrete scenario of the claim. -/
theorem c1_resolve_latest_patch_witness :
    getNextSupportedChartVersion ⟨2, 5, 1⟩
      [⟨2, 5, 0⟩, ⟨2, 5, 1⟩, ⟨2, 5, 2⟩, ⟨2, 6, 0⟩] = .ok ⟨2, 5, 2⟩ :=
  c1_resolve_latest_patch ⟨2, 5, 1⟩ ⟨2, 5, 2⟩
    [⟨2, 5, 0⟩, ⟨2, 5, 1⟩, ⟨2, 5, 2⟩, ⟨2, 6, 0⟩]
    (by decide) (by decide) (by decide) (by decide)

/-- Claim C2, counterexample.  Current 2.5.0 is the maximum-patch entry of
    its minor line in catalog {2.5.0, 2.6.0, 2.6.1}; the claim promises the
    minimum-patch (first sorted ascending) occurrence of the next minor line,
    which is 2.6.0, but the resolver returns 2.6.1: helm sorts the entries
    descending, so the first next-minor entry scanned is the greatest one
    (the repository README likewise says "latest patch of next minor"). -/
theorem c2_counterexample :
    getNextSupportedChartVersion ⟨2, 5, 0⟩ [⟨2, 5, 0⟩, ⟨2, 6, 0⟩, ⟨2, 6, 1⟩] =
      .ok ⟨2, 6, 1⟩ ∧
    (⟨2, 6, 1⟩ : SemVer) ≠ ⟨2, 6, 0⟩ ∧
    (∀ e ∈ [(⟨2, 5, 0⟩ : SemVer), ⟨2, 6, 0⟩, ⟨2, 6, 1⟩], e.minor = 6 →
      (⟨2, 6, 0⟩ : SemVer).patch ≤ e.patch) ∧
    (∀ e ∈ [(⟨2, 5, 0⟩ : SemVer), ⟨2, 6, 0⟩, ⟨2, 6, 1⟩], e.minor = 5 →
      e.patch ≤ (⟨2, 5, 0⟩ : SemVer).patch) := by
  decide

/-- Claim C2, amended: for a catalog sharing the current version's major
    (minors within the uint64 range), if c is the greatest entry of its own
    minor line then: when entries with minor c.minor+1 exist, Resolve returns
    the greatest such entry (the first occurrence in helm's descending sort
    order, hence the maximum-patch occurrence of the next minor line); when
    no such entry exists, Resolve returns c unchanged. -/
theorem c2_resolve_next_minor (c : SemVer) (catalog : List SemVer)
    (hmaj : ∀ e ∈ catalog, e.major = c.major)
    (hbound : ∀ e ∈ catalog, e.minor < U64)
    (hcb : c.minor + 1 < U64)
    (hc : c ∈ catalog)
    (hcurmax : ∀ e ∈ catalog, e.minor = c.minor → svLe e c) :
    (∀ N, N ∈ catalog → N.minor = c.minor + 1 →
      (∀ e ∈ catalog, e.minor = c.minor + 1 → svLe e N) →
      getNextSupportedChartVersion c catalog = .ok N) ∧
    ((∀ e ∈ catalog, e.minor ≠ c.minor + 1) →
      getNextSupportedChartVersion c catalog = .ok c) := by
  have hperm := List.perm_insertionSort svGe catalog
  have hsort := List.sorted_insertionSort svGe catalog
  have hcl : c ∈ List.insertionSort svGe catalog := hperm.mem_iff.mpr hc
  have hcurmaxl : ∀ e ∈ List.insertionSort svGe catalog, e.minor = c.minor → svLe e c :=
    fun e he => hcurmax e (hperm.mem_iff.mp he)
  have hfm : firstMatch (fun e => e.minor = c.minor)
      (List.insertionSort svGe catalog) = some c :=
    firstMatch_sorted_max (fun e => e.minor = c.minor) c rfl _ hsort hcl hcurmaxl
  constructor
  · intro N hN hNminor hNmax
    have hscan := scanLoop_with_next c N (List.insertionSort svGe catalog) hsort
      (fun e he => hmaj e (hperm.mem_iff.mp he))
      (fun e he => hbound e (hperm.mem_iff.mp he)) hcb
      (hperm.mem_iff.mpr hN) hNminor
      (fun e he => hNmax e (hperm.mem_iff.mp he))
      hcurmaxl
    unfold getNextSupportedChartVersion
    rw [hscan, hfm]
    show (if c ≠ c then Except.ok c
      else match some N with
        | some nextMinor => Except.ok nextMinor
        | none => Except.ok c) = Except.ok N
    rw [if_neg (fun h => h rfl)]
  · intro hno
    have hnol : ∀ e ∈ List.insertionSort svGe catalog, ¬ goDec1 e.minor = c.minor :=
      fun e he hg =>
        hno e (hperm.mem_iff.mp he)
          ((goDec1_eq_iff (hbound e (hperm.mem_iff.mp he)) hcb).mp hg)
    have hscan := scanLoop_noNext c.minor (List.insertionSort svGe catalog) none hnol
    unfold getNextSupportedChartVersion
    rw [hscan, hfm]
    show (if c ≠ c then Except.ok c
      else match (none : Option SemVer) with
        | some nextMinor => Except.ok nextMinor
        | none => Except.ok c) = Except.ok c
    rw [if_neg (fun h => h rfl)]

/-- Claim C2, witness: the spec's concrete scenario, re-resolving from 2.5.2
    in catalog {2.5.0, 2.5.1, 2.5.2, 2.6.0} yields 2.6.0. -/
theorem c2_resolve_next_minor_witness :
    getNextSupportedChartVersion ⟨2, 5, 2⟩
      [⟨2, 5, 0⟩, ⟨2, 5, 1⟩, ⟨2, 5, 2⟩, ⟨2, 6, 0⟩] = .ok ⟨2, 6, 0⟩ :=
  (c2_resolve_next_minor ⟨2, 5, 2⟩ [⟨2, 5, 0⟩, ⟨2, 5, 1⟩, ⟨2, 5, 2⟩, ⟨2, 6, 0⟩]
      (by decide) (by decide) (by decide) (by decide) (by decide)).1
    ⟨2, 6, 0⟩ (by decide) (by decide) (by decide)

/-- Claim C3: the resolver fails exactly when no catalog entry shares the
    current version's minor; whenever some entry does, it returns a version
    and no error. -/
theorem c3_error_iff_no_minor_match (c : SemVer) (catalog : List SemVer) :
    ((∃ msg, getNextSupportedChartVersion c catalog = .error msg) ↔
      ∀ e ∈ catalog, e.minor ≠ c.minor) ∧
    ((∃ v, getNextSupportedChartVersion c catalog = .ok v) ↔
      ∃ e ∈ catalog, e.minor = c.minor) := by
  have hperm := List.perm_insertionSort svGe catalog
  have h2 := scanLoop_snd c.minor (List.insertionSort svGe catalog) none
  unfold getNextSupportedChartVersion
  rcases hp : scanLoop c.minor (List.insertionSort svGe catalog) none with ⟨nm, lp⟩
  rw [hp] at h2
  cases lp with
  | none =>
    have hnone : ∀ e ∈ List.insertionSort svGe catalog, ¬ e.minor = c.minor :=
      (firstMatch_eq_none _ _).mp h2.symm
    constructor
    · exact ⟨fun _ e he => hnone e (hperm.mem_iff.mpr he),
        fun _ => ⟨"could not detect latest patch for current minor line", rfl⟩⟩
    · constructor
      · rintro ⟨v, hv⟩
        exact absurd hv (fun h => Except.noConfusion h)
      · rintro ⟨e, he, hm⟩
        exact absurd hm (hnone e (hperm.mem_iff.mpr he))
  | some latest =>
    obtain ⟨hmem, hp2⟩ := firstMatch_eq_some _ _ latest h2.symm
    constructor
    · constructor
      · rintro ⟨msg, hmsg⟩
        exfalso
        revert hmsg
        show ¬ ((if c ≠ latest then Except.ok latest
          else match nm with
            | some nextMinor => Except.ok nextMinor
            | none => Except.ok c) = Except.error msg)
        by_cases hcl : c ≠ latest
        · rw [if_pos hcl]; exact fun h => Except.noConfusion h
        · rw [if_neg hcl]
          cases nm <;> exact fun h => Except.noConfusion h
      · intro hall
        exact absurd hp2 (hall latest (hperm.mem_iff.mp hmem))
    · constructor
      · intro _
        exact ⟨latest, hperm.mem_iff.mp hmem, hp2⟩
      · intro _
        show ∃ v, (if c ≠ latest then Except.ok latest
          else match nm with
            | some nextMinor => Except.ok nextMinor
            | none => Except.ok c) = Except.ok v
        by_cases hcl : c ≠ latest
        · exact ⟨latest, by rw [if_pos hcl]⟩
        · cases nm with
          | some x => exact ⟨x, by rw [if_neg hcl]⟩
          | none => exact ⟨c, by rw [if_neg hcl]⟩

/-- Claim C9: the step-5 comparison is between version values, so a current
    version absent from the catalog still resolves to the greatest entry of
    its minor line; catalog membership of the current version is never
    required. -/
theorem c9_value_comparison (c M : SemVer) (catalog : List SemVer)
    (hM : M ∈ catalog) (hminor : M.minor = c.minor)
    (hmax : ∀ e ∈ catalog, e.minor = c.minor → svLe e M)
    (hmem : c ∉ catalog) :
    getNextSupportedChartVersion c catalog = .ok M :=
  resolve_ok_of_max c M catalog hM hminor hmax
    (fun h => hmem (h ▸ hM))

/-- Claim C9, witness: the spec's skipped-patch scenario, current 2.5.1 with
    catalog {2.5.0, 2.5.2, 2.6.0}. -/
theorem c9_value_comparison_witness :
    getNextSupportedChartVersion ⟨2, 5, 1⟩ [⟨2, 5, 0⟩, ⟨2, 5, 2⟩, ⟨2, 6, 0⟩] =
      .ok ⟨2, 5, 2⟩ :=
  c9_value_comparison ⟨2, 5, 1⟩ ⟨2, 5, 2⟩ [⟨2, 5, 0⟩, ⟨2, 5, 2⟩, ⟨2, 6, 0⟩]
    (by decide) (by decide) (by decide) (by decide)

/-- Claim C4, counterexample.  For start 1.2.0 and end 1.2.(2^64-1) the
    patch difference n is 2^64-1, so the uint64 slice length diff+1 wraps to
    zero and the builder returns the empty sequence instead of the promised
    n+1 = 2^64 versions. -/
theorem c4_counterexample :
    getReleasesBetweenInclusive ⟨1, 2, 0⟩ ⟨1, 2, 18446744073709551615⟩ =
      .ok [] ∧
    (⟨1, 2, 18446744073709551615⟩ : SemVer).patch =
      (⟨1, 2, 0⟩ : SemVer).patch + 18446744073709551615 ∧
    (0 : Nat) ≠ 18446744073709551615 + 1 := by
  decide

/-- Claim C4, amended: for parseable versions with equal major and minor and
    b.patch = a.patch + n, provided the length n+1 fits in a Go int (it wraps
    to zero at n = 2^64-1 and the slice allocation panics for larger lengths
    that are still above the int range), BuildRange returns exactly the n+1
    versions with a's major and minor and patches a.patch, ..., b.patch in
    strictly increasing order. -/
theorem c4_build_range (a b : SemVer) (n : Nat)
    (hmaj : b.major = a.major) (hmin : b.minor = a.minor)
    (hpatch : b.patch = a.patch + n)
    (hb : b.patch < U64)
    (hcount : n + 1 ≤ maxGoInt) :
    getReleasesBetweenInclusive a b =
      .ok ((List.range (n + 1)).map fun i => SemVer.mk a.major a.minor (a.patch + i)) ∧
    ((List.range (n + 1)).map fun i => SemVer.mk a.major a.minor (a.patch + i)).length
      = n + 1 ∧
    (∀ v ∈ (List.range (n + 1)).map fun i => SemVer.mk a.major a.minor (a.patch + i),
      v.major = a.major ∧ v.minor = a.minor) ∧
    List.Pairwise (fun x y => x.patch < y.patch)
      ((List.range (n + 1)).map fun i => SemVer.mk a.major a.minor (a.patch + i)) := by
  have hd : u64sub b.patch a.patch = n := by
    unfold u64sub U64 at *; omega
  have hc2 : u64add n 1 = n + 1 := by
    unfold u64add U64 maxGoInt at *; omega
  refine ⟨?_, ?_, ?_, ?_⟩
  · simp only [getReleasesBetweenInclusive]
    rw [hd, hc2, if_pos hcount]
    congr 1
    apply List.map_congr_left
    intro i hi
    have hi2 : i < n + 1 := List.mem_range.mp hi
    have : u64add a.patch i = a.patch + i := by
      unfold u64add U64 at *; omega
    rw [this]
  · simp
  · intro v hv
    obtain ⟨i, _, rfl⟩ := List.mem_map.mp hv
    exact ⟨rfl, rfl⟩
  · rw [List.pairwise_map]
    exact (List.pairwise_lt_range (n + 1)).imp (fun h => by
      dsimp only
      omega)

/-- Claim C4, witness: the spec's concrete scenarios BuildRange({1,2,3},
    {1,2,5}) and BuildRange(v, v). -/
theorem c4_build_range_witness :
    getReleasesBetweenInclusive ⟨1, 2, 3⟩ ⟨1, 2, 5⟩ =
      .ok [⟨1, 2, 3⟩, ⟨1, 2, 4⟩, ⟨1, 2, 5⟩] ∧
    getReleasesBetweenInclusive ⟨1, 2, 3⟩ ⟨1, 2, 3⟩ = .ok [⟨1, 2, 3⟩] :=
  ⟨(c4_build_range ⟨1, 2, 3⟩ ⟨1, 2, 5⟩ 2 (by decide) (by decide) (by decide)
      (by decide) (by decide)).1,
    (c4_build_range ⟨1, 2, 3⟩ ⟨1, 2, 3⟩ 0 (by decide) (by decide) (by decide)
      (by decide) (by decide)).1⟩

/-- Claim C5: evaluation at the failing input.  For start 1.2.(2^64-1) and
    end 1.2.0 (end.patch < start.patch) the uint64 difference wraps to 1 and
    the builder silently returns a two-element sequence whose second patch
    has wrapped past 2^64, instead of an empty sequence or an error. -/
theorem c5_wraparound_bug :
    (⟨1, 2, 0⟩ : SemVer).patch < (⟨1, 2, 18446744073709551615⟩ : SemVer).patch ∧
    getReleasesBetweenInclusive ⟨1, 2, 18446744073709551615⟩ ⟨1, 2, 0⟩ =
      .ok [⟨1, 2, 18446744073709551615⟩, ⟨1, 2, 0⟩] := by
  decide

/-- Claim C6: evaluation at the failing input.  The builder never compares
    major or minor components: for start 2.5.0 and end 2.6.4 it silently
    returns five versions on start's minor line rather than rejecting the
    cross-minor range with an error. -/
theorem c6_cross_minor_accepted :
    (⟨2, 5, 0⟩ : SemVer).minor ≠ (⟨2, 6, 4⟩ : SemVer).minor ∧
    getReleasesBetweenInclusive ⟨2, 5, 0⟩ ⟨2, 6, 4⟩ =
      .ok [⟨2, 5, 0⟩, ⟨2, 5, 1⟩, ⟨2, 5, 2⟩, ⟨2, 5, 3⟩, ⟨2, 5, 4⟩] := by
  decide

theorem isPrefixOf_append (p s : List Char) : p.isPrefixOf (p ++ s) = true := by
  induction p with
  | nil => simp [List.isPrefixOf]
  | cons a t ih => simp [List.isPrefixOf, ih]

theorem strIndex_self_append (p s : List Char) : strIndex p (p ++ s) = some 0 := by
  cases p with
  | nil =>
    cases s with
    | nil => rfl
    | cons c rest => simp [strIndex, List.isPrefixOf]
  | cons a t =>
    have h := isPrefixOf_append (a :: t) s
    simp [strIndex, h]

theorem replaceFirst_self_append (p s : List Char) :
    replaceFirst (p ++ s) p [] = s := by
  unfold replaceFirst
  rw [strIndex_self_append]
  show (p ++ s).take 0 ++ [] ++ (p ++ s).drop (0 + p.length) = s
  simp [List.drop_left]

/-- The incremental-addition computation of the differ: removing the first
    occurrence of the previous full body from a full body that extends it
    leaves exactly the appended suffix (also when the previous body was
    empty, in which case the branch keeps the full body, which is the
    suffix). -/
theorem incrementalAddition (p s : List Char) :
    (if p = [] then p ++ s else replaceFirst (p ++ s) p []) = s := by
  by_cases hp : p = []
  · rw [if_pos hp, hp]
    rfl
  · rw [if_neg hp, replaceFirst_self_append]

/-- Claim C7: over a three-version range whose bugfix section extracts
    strictly extend one another, the differ surfaces the full first extract
    at index 0 and exactly the appended suffixes at indices 1 and 2. -/
theorem c7_incremental_bugfixes (fetch : SemVer → List Char) (v1 v2 v3 : SemVer)
    (e1 s2 s3 k1 k2 k3 : List Char)
    (hb1 : parseNotesSections majorBugFixHeader rancherBehaviorChangesHeader
      (stripComments (fetch v1)) = .ok e1)
    (hb2 : parseNotesSections majorBugFixHeader rancherBehaviorChangesHeader
      (stripComments (fetch v2)) = .ok (e1 ++ s2))
    (hb3 : parseNotesSections majorBugFixHeader rancherBehaviorChangesHeader
      (stripComments (fetch v3)) = .ok ((e1 ++ s2) ++ s3))
    (hk1 : parseNotesSections knownIssuesHeader installUpgradeNotesHeader
      (stripComments (fetch v1)) = .ok k1)
    (hk2 : parseNotesSections knownIssuesHeader installUpgradeNotesHeader
      (stripComments (fetch v2)) = .ok k2)
    (hk3 : parseNotesSections knownIssuesHeader installUpgradeNotesHeader
      (stripComments (fetch v3)) = .ok k3)
    (hs2 : s2 ≠ []) (hs3 : s3 ≠ []) :
    ∃ issues, parseReleaseNotes fetch [v1, v2, v3] =
      .ok ([parseBulletPoints e1, parseBulletPoints s2, parseBulletPoints s3],
        issues) := by
  have hif : ∀ x y : List Char, (if ([] : List Char) = [] then x else y) = x :=
    fun x y => if_pos rfl
  simp only [parseReleaseNotes, parseReleaseNotesFrom, hb1, hb2, hb3, hk1, hk2,
    hk3, hif, incrementalAddition]
  exact ⟨_, rfl⟩

def c7doc1 : List Char :=
  ("# Major Bug Fixes- a# Rancher Behavior Changes" ++
    "# Known Issues# Install/Upgrade Notes").toList

def c7doc2 : List Char :=
  ("# Major Bug Fixes- a- b# Rancher Behavior Changes" ++
    "# Known Issues# Install/Upgrade Notes").toList

def c7doc3 : List Char :=
  ("# Major Bug Fixes- a- b- c# Rancher Behavior Changes" ++
    "# Known Issues# Install/Upgrade Notes").toList

def c7fetch (v : SemVer) : List Char :=
  if v = ⟨1, 0, 0⟩ then c7doc1 else if v = ⟨1, 0, 1⟩ then c7doc2 else c7doc3

/-- Claim C7, witness: three concrete documents whose bugfix sections extend
    one another by one bullet each. -/
theorem c7_incremental_bugfixes_witness :
    ∃ issues, parseReleaseNotes c7fetch [⟨1, 0, 0⟩, ⟨1, 0, 1⟩, ⟨1, 0, 2⟩] =
      .ok ([parseBulletPoints ("- a".toList), parseBulletPoints ("- b".toList),
        parseBulletPoints ("- c".toList)], issues) :=
  c7_incremental_bugfixes c7fetch ⟨1, 0, 0⟩ ⟨1, 0, 1⟩ ⟨1, 0, 2⟩
    ("- a".toList) ("- b".toList) ("- c".toList) [] [] []
    (by decide) (by decide) (by decide) (by decide) (by decide) (by decide)
    (by decide) (by decide)

def c8doc : List Char :=
  ("# Major Bug Fixes- fix <!--a_b--> one# Rancher Behavior Changes" ++
    "# Known Issues# Install/Upgrade Notes").toList

/-- Claim C8, counterexample.  The comment pattern only matches interiors
    drawn from the class A-Za-z0-9-#/, and space; a comment containing an
    underscore is not stripped, and its delimiters reach the bullet text: the
    bullet fragment surfaced for this document contains the literal
    delimiter. -/
theorem c8_counterexample :
    parseReleaseNotes (fun _ => c8doc) [⟨2, 6, 0⟩] =
      .ok ([[[], "fix <!--a_b--> one".toList]], [[[]]]) ∧
    "fix <!--a_b--> one".toList =
      "fix ".toList ++ "<!--".toList ++ "a_b--> one".toList := by
  decide

theorem classChar_ne_gt {c : Char} (h : classChar c = true) : c ≠ '>' := by
  intro hc
  rw [hc] at h
  exact absurd h (by decide)

theorem commentEnd_class :
    ∀ (interior rest : List Char), (∀ c ∈ interior, classChar c = true) →
      commentEnd (interior ++ '-' :: '-' :: '>' :: rest) = some rest := by
  intro interior
  induction interior with
  | nil =>
    intro rest _
    show commentEnd ('-' :: '-' :: '>' :: rest) = some rest
    simp [commentEnd]
  | cons a t ih =>
    intro rest hclass
    have ha : classChar a = true := hclass a (List.mem_cons_self a t)
    show commentEnd (a :: (t ++ '-' :: '-' :: '>' :: rest)) = some rest
    have hcond : ¬ (a = '-' ∧ (t ++ '-' :: '-' :: '>' :: rest).take 2 = ['-', '>']) := by
      rintro ⟨-, h2⟩
      cases t with
      | nil => simp at h2
      | cons b t2 =>
        cases t2 with
        | nil => simp at h2
        | cons c2 t3 =>
          simp at h2
          exact classChar_ne_gt
            (hclass c2 (List.mem_cons_of_mem a
              (List.mem_cons_of_mem b (List.mem_cons_self c2 t3)))) h2.2
    rw [commentEnd, if_neg hcond, if_pos ha]
    exact ih rest (fun c hc => hclass c (List.mem_cons_of_mem a hc))

theorem stripCommentsAux_nil : ∀ fuel, stripCommentsAux fuel [] = [] := by
  intro fuel
  cases fuel with
  | zero => rfl
  | succ f => rfl

/-- Claim C8, amended: the differ strips exactly the comments matching the
    fixed pattern: a comment whose interior consists of characters from the
    class A-Za-z0-9-#/, and space is deleted entirely, while comments with
    other interior characters are left in place (and their delimiters can
    appear in bullet fragments, as the counterexample shows). -/
theorem c8_strip_class_comment (interior : List Char)
    (hclass : ∀ c ∈ interior, classChar c = true) :
    stripComments ('<' :: '!' :: '-' :: '-' :: (interior ++ ['-', '-', '>'])) = [] := by
  show stripCommentsAux
    (('<' :: '!' :: '-' :: '-' :: (interior ++ ['-', '-', '>'])).length)
    ('<' :: '!' :: '-' :: '-' :: (interior ++ ['-', '-', '>'])) = []
  simp only [List.length_cons]
  rw [stripCommentsAux, commentEnd_class interior [] hclass]
  exact stripCommentsAux_nil _

/-- Claim C8, amended-claim witness: a concrete in-class comment strips to
    nothing. -/
theorem c8_strip_class_comment_witness :
    stripComments ('<' :: '!' :: '-' :: '-' :: (" note-1, ok ".toList ++ ['-', '-', '>'])) = [] :=
  c8_strip_class_comment (" note-1, ok ".toList) (by decide)

/-- Claim C10: parseNotesSections hits its out-of-bounds branch exactly when
    both headers occur and the first occurrence of the second header starts
    before the end of the first occurrence of the first header; under the
    complementary precondition the extraction is total. -/
theorem c10_slice_bounds (header1 header2 notes : List Char) :
    (∃ msg, parseNotesSections header1 header2 notes = .error msg) ↔
    (∃ i j, strIndex header1 notes = some i ∧ strIndex header2 notes = some j ∧
      j < i + header1.length) := by
  unfold parseNotesSections
  rcases h1 : strIndex header1 notes with _ | i
  · constructor
    · rintro ⟨msg, hmsg⟩
      exact absurd hmsg (fun h => Except.noConfusion h)
    · rintro ⟨i, j, hi, -, -⟩
      exact absurd hi (fun h => Option.noConfusion h)
  · rcases h2 : strIndex header2 notes with _ | j
    · constructor
      · rintro ⟨msg, hmsg⟩
        exact absurd hmsg (fun h => Except.noConfusion h)
      · rintro ⟨i2, j2, -, hj, -⟩
        exact absurd hj (fun h => Option.noConfusion h)
    · dsimp only
      by_cases hle : i + header1.length ≤ j
      · rw [if_pos hle]
        constructor
        · rintro ⟨msg, hmsg⟩
          exact absurd hmsg (fun h => Except.noConfusion h)
        · rintro ⟨i2, j2, hi2, hj2, hlt⟩
          obtain rfl : i = i2 := Option.some.inj hi2
          obtain rfl : j = j2 := Option.some.inj hj2
          omega
      · rw [if_neg hle]
        exact ⟨fun _ => ⟨i, j, rfl, rfl, by omega⟩,
          fun _ => ⟨"runtime error: slice bounds out of range", rfl⟩⟩

